import Mathlib

/-!
Verification of the jetty_access_control repository: a shallow embedding of
the explore-UI TypeScript/Vue code (util.ts, util/search.ts, JettyTable and
the table components, AssetPage, models.ts) together with a model, built
from the specification, of the permission-resolution core that the
repository documents but does not ship in source form.

JavaScript strings are embedded as lists of characters (`JStr`), arrays as
`List`, objects as structures, and the `undefined`/`null` distinctions that
the code branches on are made explicit with `Option` and dedicated
inductives.
-/

namespace Jetty

/-- JavaScript strings are modelled as lists of characters. -/
abbrev JStr := List Char

/-- View a Lean string literal as the character-list model of a JS string. -/
def jstr (s : String) : JStr := s.data

/-- Models JavaScript `Array.prototype.join(sep)`. -/
def joinWith (sep : JStr) : List JStr → JStr
  | [] => []
  | [x] => x
  | x :: y :: xs => x ++ sep ++ joinWith sep (y :: xs)

/-- Models JavaScript `Array.prototype.flatMap`: map then flatten one level. -/
def jsFlatMap {α β : Type} (l : List α) (f : α → List β) : List β :=
  (l.map f).flatten

/-- Models `String.prototype.split(ch)` for a one-character separator. -/
def splitOnChar (ch : Char) : JStr → List JStr
  | [] => [[]]
  | c :: rest =>
    if c = ch then [] :: splitOnChar ch rest
    else
      match splitOnChar ch rest with
      | [] => [[c]]
      | h :: t => (c :: h) :: t

/-- First occurrence split: `splitFirst sep s = some (pre, post)` when
`s = pre ++ sep ++ post` at the leftmost occurrence of `sep`. -/
def splitFirst (sep : JStr) : JStr → Option (JStr × JStr)
  | [] => none
  | c :: rest =>
    if sep.isPrefixOf (c :: rest) then some ([], (c :: rest).drop sep.length)
    else
      match splitFirst sep rest with
      | some (pre, post) => some (c :: pre, post)
      | none => none

/-- Fuel-driven worker for `splitOnStr`. -/
def splitOnStrAux (sep : JStr) : Nat → JStr → List JStr
  | 0, s => [s]
  | fuel + 1, s =>
    match splitFirst sep s with
    | some (pre, post) => pre :: splitOnStrAux sep fuel post
    | none => [s]

/-- Models `String.prototype.split(sep)` for a non-empty string separator. -/
def splitOnStr (sep : JStr) (s : JStr) : List JStr :=
  splitOnStrAux sep (s.length + 1) s

/-- Models `Array.prototype.pop()` on a freshly split list, as used by
`assetShortName`: the last element, `""` when there is none. -/
def lastD (l : List JStr) : JStr := l.getLastD []

/-! ## models.ts — node summaries

The record shapes of `GroupSummary`, `UserSummary`, `AssetSummary` and
`TagSummary` from components/models.ts, flattened: the TS interfaces nest
the payload under a kind key (`node.Group.…`), which the embedding replaces
by the `NodeSummary` sum below.  The `AssetSummary` name carries the
`connector`/`path` fields that `nodeNameAsString` (util.ts:81-95) reads. -/

structure GroupSummary where
  name : JStr
  origin : JStr
  connectors : List JStr
deriving DecidableEq, Repr

structure UserSummary where
  name : JStr
  connectors : List JStr
deriving DecidableEq, Repr

structure AssetSummary where
  connector : JStr
  path : List JStr
  asset_type : JStr
  connectors : List JStr
deriving DecidableEq, Repr

/-- `TagSummary` from models.ts lines 100-108.  The third field keeps the
source's spelling `pass_through_hierarch` (sic, no trailing `y`). -/
structure TagSummary where
  name : JStr
  description : Option JStr
  pass_through_hierarch : Bool
  pass_through_lineage : Bool
  connectors : List JStr
deriving DecidableEq, Repr

/-- The `NodeSummary` union of util.ts: a node is a Group, User, Asset or
Tag summary, discriminated in the source by the `'Group' in node` tests. -/
inductive NodeSummary where
  | group (g : GroupSummary)
  | user (u : UserSummary)
  | asset (a : AssetSummary)
  | tag (t : TagSummary)
deriving DecidableEq, Repr

/-- `nodeNameAsString` from util.ts lines 81-95: Group renders as
`origin::name`, User as the bare name, Asset as `connector::` followed by
the path segments joined with `/`, Tag as the bare name. -/
def nodeNameAsString : NodeSummary → JStr
  | .group g => g.origin ++ jstr "::" ++ g.name
  | .user u => u.name
  | .asset a => a.connector ++ jstr "::" ++ joinWith (jstr "/") a.path
  | .tag t => t.name

/-- `assetShortName` from util.ts lines 146-148:
`nodeNameAsString(asset).split('::').pop().split('/').pop()`. -/
def assetShortName (a : AssetSummary) : JStr :=
  lastD (splitOnChar '/' (lastD (splitOnStr (jstr "::") (nodeNameAsString (.asset a)))))

/-- `getPathAsString` from util.ts lines 111-120: asset entries render with
their short name, every other node with `nodeNameAsString`; entries are
joined with the `⇨` arrow separator. -/
def getPathAsString (path : List NodeSummary) : JStr :=
  joinWith (jstr " ⇨ ")
    (path.map (fun n =>
      match n with
      | .asset a => assetShortName a
      | _ => nodeNameAsString n))

/-! ## util.ts — CSV export -/

/-- The JavaScript values that reach `wrapCsvValue`: `undefined`, `null`,
or a value whose `String(…)` image is the carried string. -/
inductive CsvVal where
  | undef
  | null
  | str (s : JStr)
deriving DecidableEq, Repr

/-- The first step of `wrapCsvValue` (util.ts:44):
`val === void 0 || val === null ? '' : String(val)`. -/
def csvBaseString : CsvVal → JStr
  | .undef => []
  | .null => []
  | .str s => s

/-- `wrapCsvValue` from util.ts lines 43-55: double every `"` via
`split('"').join('""')` and wrap the result in double quotes. -/
def wrapCsvValue (v : CsvVal) : JStr :=
  let formatted := csvBaseString v
  let escaped := joinWith (jstr "\"\"") (splitOnChar '\"' formatted)
  '\"' :: escaped ++ ['\"']

/-- The `content` string built by `downloadCSV` (util.ts lines 57-68): the
header array and the comma-joined data rows, joined with CRLF.  (JS coerces
the leading header array to a string with `Array.prototype.join(',')` when
the outer `join('\r\n')` runs.) -/
def downloadCSVContent (columns : List CsvVal) (rows : List (List CsvVal)) : JStr :=
  joinWith (jstr "\r\n")
    (joinWith (jstr ",") (columns.map wrapCsvValue)
      :: rows.map (fun row => joinWith (jstr ",") (row.map wrapCsvValue)))

/-- Quote-doubling as the specification describes it: each `"` character of
the input becomes `""`. -/
def doubleQuotes (s : JStr) : JStr :=
  s.flatMap (fun c => if c = '\"' then [c, c] else [c])

/-! ## util/search.ts — jettySearch -/

/-- The whitespace class of the JavaScript regexp `\s` (the code points the
search tokenizer can meet in practice). -/
def isJsSpace (c : Char) : Bool :=
  c = ' ' || c = '\t' || c = '\n' || c = '\x0b' || c = '\x0c' || c = '\r' || c = ' '

/-- JavaScript line terminators, which `.` in a regexp does not match. -/
def isLineTerminator (c : Char) : Bool :=
  c = '\n' || c = '\r' || c = ' ' || c = ' '

/-- A character that the regexp alternative `[^"\s]+` accepts. -/
def isTokenChar (c : Char) : Bool :=
  !(c = '\"' || isJsSpace c)

/-- Models `String.prototype.includes(needle)` on the receiver `hay`. -/
def includesB : JStr → JStr → Bool
  | [], needle => needle.isEmpty
  | c :: t, needle => List.isPrefixOf needle (c :: t) || includesB t needle

/-- Models `String.prototype.toLocaleLowerCase` character-wise. -/
def lowerStr (s : JStr) : JStr := s.map Char.toLower

/-- Scan for the closing quote of the non-greedy alternative `".*?"`:
succeeds with the span before the nearest `"`, fails when a line
terminator (which `.` cannot match) or the end of input comes first. -/
def findCloseQuote : JStr → Option (JStr × JStr)
  | [] => none
  | c :: rest =>
    if c = '\"' then some ([], rest)
    else if isLineTerminator c then none
    else
      match findCloseQuote rest with
      | some (pre, r) => some (c :: pre, r)
      | none => none

/-- Fuel-driven worker for `parseTerms`; every step consumes at least one
character, so fuel equal to the input length suffices. -/
def parseTermsAux : Nat → JStr → List JStr
  | 0, _ => []
  | _ + 1, [] => []
  | fuel + 1, c :: rest =>
    if c = '\"' then
      match findCloseQuote rest with
      | some (pre, r) => ('\"' :: pre ++ ['\"']) :: parseTermsAux fuel r
      | none => parseTermsAux fuel rest
    else if isJsSpace c then parseTermsAux fuel rest
    else (c :: rest.takeWhile isTokenChar) :: parseTermsAux fuel (rest.dropWhile isTokenChar)

/-- The tokenization `term.match(/(".*?"|[^"\s]+)(?=\s*|\s*$)/g) ?? []` of
`jettySearch`: quoted spans (quotes kept — the quote-stripping `map`
in the source applies only to the `[]` fallback) and maximal runs of
non-quote non-space characters; the lookahead `(?=\s*|\s*$)` always
succeeds and is a no-op. -/
def parseTerms (term : JStr) : List JStr :=
  parseTermsAux term.length term

/-- The `SearchOptions` interface: both keys may be absent (`undefined`).
The source merges `{...defaultSearchOptions, ...options}` with defaults
`caseSensitive: false, numResults: undefined`; absent-or-undefined
`caseSensitive` is falsy exactly like the merged default, which
`Option.getD false` reproduces. -/
structure SearchOptions where
  caseSensitive : Option Bool
  numResults : Option Nat
deriving DecidableEq, Repr

/-- The per-item test of `jettySearch` (util/search.ts): case-sensitive
containment of every term when `caseSensitive` is set, or else
case-insensitive containment of every term. -/
def searchMatches (cs : Bool) (terms : List JStr) (target : JStr) : Bool :=
  (cs && terms.all (fun t => includesB target t))
    || terms.all (fun t => includesB (lowerStr target) (lowerStr t))

/-- The `items.find` accumulation loop of the bounded branch of
`jettySearch`: push every match and stop as soon as the accumulated length
equals `numResults`; `len` is the length accumulated so far. -/
def collectUpTo {α : Type} (p : α → Bool) (n : Nat) : Nat → List α → List α
  | _, [] => []
  | len, i :: rest =>
    if p i then
      i :: (if len + 1 = n then [] else collectUpTo p n (len + 1) rest)
    else collectUpTo p n len rest

/-- `jettySearch` from util/search.ts (and part_012 lines 149-207): filter
`items` by `searchMatches` over the parsed terms, stopping early at
`numResults` matches when that option is set.  The source's optional
`options` parameter is passed explicitly; a caller omitting it supplies
`⟨none, none⟩`. -/
def jettySearch {α : Type} (items : List α) (itemMapper : α → JStr) (term : JStr)
    (options : SearchOptions) : List α :=
  let cs := options.caseSensitive.getD false
  let terms := parseTerms term
  let p := fun i => searchMatches cs terms (itemMapper i)
  match options.numResults with
  | some n => collectUpTo p n 0 items
  | none => items.filter p

/-! ## JettyTable.vue -/

/-- `filterMethod` of JettyTable.vue (part_001 lines 136-147): the empty
filter term returns the rows as they are; otherwise the rows are searched
with `jettySearch` (with no options object).  The debounce-time
instrumentation around the call does not touch the returned rows and is
omitted. -/
def filterMethod {α : Type} (rowTransformer : α → JStr) (rows : List α) (terms : JStr) : List α :=
  if terms = [] then rows else jettySearch rows rowTransformer terms ⟨none, none⟩

/-! ## encodeURIComponent and the component fetch paths -/

/-- Upper-case hexadecimal digit of a value below 16. -/
def hexDigit (n : Nat) : Char :=
  if n < 10 then Char.ofNat (48 + n) else Char.ofNat (55 + n)

/-- UTF-8 bytes of the code point `n`. -/
def utf8Bytes (n : Nat) : List Nat :=
  if n < 128 then [n]
  else if n < 2048 then [192 + n / 64, 128 + n % 64]
  else if n < 65536 then [224 + n / 4096, 128 + n / 64 % 64, 128 + n % 64]
  else [240 + n / 262144, 128 + n / 4096 % 64, 128 + n / 64 % 64, 128 + n % 64]

/-- The characters `encodeURIComponent` leaves unescaped. -/
def isUriUnreserved (c : Char) : Bool :=
  c.isAlpha || c.isDigit || c = '-' || c = '_' || c = '.' || c = '!' ||
    c = '~' || c = '*' || c = '\'' || c = '(' || c = ')'

/-- Models JavaScript `encodeURIComponent`: unreserved characters pass
through, every other character emits `%XY` for each of its UTF-8 bytes. -/
def encodeURIComponent (s : JStr) : JStr :=
  s.flatMap (fun c =>
    if isUriUnreserved c then [c]
    else (utf8Bytes c.toNat).flatMap (fun b => ['%', hexDigit (b / 16), hexDigit (b % 16)]))

/-- `fetchPath` of assets/DirectAccess.vue (line 8):
`'/api/asset/' + encodeURIComponent(props.node.name) + '/users'`. -/
def directAccessFetchPath (name : JStr) : JStr :=
  jstr "/api/asset/" ++ encodeURIComponent name ++ jstr "/users"

/-- `fetchPath` of users/AssetsTable.vue (line 8):
`'/api/user/' + encodeURIComponent(props.node.name) + '/assets'`. -/
def userAssetsFetchPath (name : JStr) : JStr :=
  jstr "/api/user/" ++ encodeURIComponent name ++ jstr "/assets"

/-- `fetchPath` of tags/AllAssets.vue (lines 8-10):
`'/api/tag/' + encodeURIComponent(props.node.name) + '/all_assets'`. -/
def tagAllAssetsFetchPath (name : JStr) : JStr :=
  jstr "/api/tag/" ++ encodeURIComponent name ++ jstr "/all_assets"

/-- `fetchPath` of groups/AllMemberTable.vue (lines 8-10):
`'/api/group/' + encodeURIComponent(props.node.name) + '/all_members'`. -/
def groupAllMembersFetchPath (name : JStr) : JStr :=
  jstr "/api/group/" ++ encodeURIComponent name ++ jstr "/all_members"

/-- Modelled from the spec: the documented façade path pattern
`/api/{kind}/{id}/{query}` of §6 (the façade server itself ships outside
this repository's source tree). -/
def facadePath (kind id query : JStr) : JStr :=
  jstr "/api/" ++ kind ++ jstr "/" ++ id ++ jstr "/" ++ query

/-! ## Façade result rows and their consuming components

The façade server is not part of this repository's source; the spec (§6)
states that each endpoint returns "a node plus zero or more witness paths",
and the client type declarations (`UserWithPaths`, `GroupWithPaths`,
`AssetWithPaths`) mirror that shape. -/

/-- Modelled from the spec: a façade result row — a node plus zero or more
witness paths — as declared client-side by `UserWithPaths` in
groups/AllMemberTable.vue lines 53-56. -/
structure UserWithPaths where
  node : UserSummary
  paths : List (List NodeSummary)
deriving DecidableEq, Repr

/-- `csvConfig.mappingFn` of groups/AllMemberTable.vue (lines 78-90): one
CSV row per (result row, membership path) pair. -/
def allMembersMappingFn (filteredSortedRows : List UserWithPaths) : List (List JStr) :=
  jsFlatMap filteredSortedRows (fun r =>
    r.paths.map (fun m =>
      [nodeNameAsString (.user r.node), joinWith (jstr ", ") r.node.connectors,
        getPathAsString m]))

/-- The membership-paths table cell of AllMemberTable.vue (template lines
36-38): the `NodePath` component receives `row.paths` unabridged. -/
def allMembersRenderedPaths (r : UserWithPaths) : List (List NodeSummary) :=
  r.paths

/-- One privilege entry of a DirectAccess row: a privilege name with its
explanations. -/
structure AccessPrivilege where
  name : JStr
  explanations : List JStr
deriving DecidableEq, Repr

/-- A row of the `/api/asset/{id}/users` response as consumed by
assets/DirectAccess.vue: user name, platforms, privileges. -/
structure DirectAccessRow where
  name : JStr
  platforms : List JStr
  privileges : List AccessPrivilege
deriving DecidableEq, Repr

/-- `csvConfig.mappingFn` of assets/DirectAccess.vue (lines 101-111): one
CSV row per (row, privilege, explanation) triple. -/
def directAccessMappingFn (filteredSortedRows : List DirectAccessRow) : List (List JStr) :=
  jsFlatMap filteredSortedRows (fun r =>
    jsFlatMap r.privileges (fun p =>
      p.explanations.map (fun e => [r.name, p.name, e])))

/-- The privileges cell of DirectAccess.vue (template lines 33-56): one
list entry per privilege, each carrying all of its explanations. -/
def directAccessRenderedPrivileges (r : DirectAccessRow) : List (JStr × List JStr) :=
  r.privileges.map (fun p => (p.name, p.explanations))

/-- `Allow`/`Deny` as carried by `EffectivePermission.mode` (models.ts). -/
inductive PermissionMode where
  | Allow
  | Deny
deriving DecidableEq, Repr

/-- The `EffectivePermission` interface from models.ts lines 90-94:
a privilege name, an Allow/Deny mode, and the witness reasons. -/
structure EffectivePermission where
  privilege : JStr
  mode : PermissionMode
  reasons : List JStr
deriving DecidableEq, Repr

/-- The `AssetWithEffectivePermissions` interface of users/AssetsTable.vue
(the `/api/user/{id}/assets` result row): an asset node plus its effective
permissions, each carrying zero or more witness reasons. -/
structure AssetWithEffectivePermissions where
  node : AssetSummary
  privileges : List EffectivePermission
deriving DecidableEq, Repr

/-- `csvConfig.mappingFn` of users/AssetsTable.vue: one CSV line per
(row, privilege, reason) triple. -/
def userAssetsMappingFn (filteredSortedRows : List AssetWithEffectivePermissions) :
    List (List JStr) :=
  jsFlatMap filteredSortedRows (fun r =>
    jsFlatMap r.privileges (fun p =>
      p.reasons.map (fun e =>
        [nodeNameAsString (.asset r.node), joinWith (jstr ", ") r.node.connectors,
          p.privilege, e])))

/-- The privileges cell of users/AssetsTable.vue (template): one list entry
per effective permission, each rendering all of its reasons. -/
def userAssetsRenderedPrivileges (r : AssetWithEffectivePermissions) :
    List (JStr × List JStr) :=
  r.privileges.map (fun p => (p.privilege, p.reasons))

/-- The `AssetWithPaths` interface from models.ts as consumed by
tags/AllAssets.vue (the `/api/tag/{id}/all_assets` result row): an asset
node plus zero or more witness paths. -/
structure AssetWithPaths where
  node : AssetSummary
  paths : List (List NodeSummary)
deriving DecidableEq, Repr

/-- `csvConfig.mappingFn` of tags/AllAssets.vue: one CSV line per
(row, tag path) pair. -/
def tagAllAssetsMappingFn (filteredSortedRows : List AssetWithPaths) :
    List (List JStr) :=
  jsFlatMap filteredSortedRows (fun r =>
    r.paths.map (fun p =>
      [nodeNameAsString (.asset r.node), joinWith (jstr ", ") r.node.connectors,
        getPathAsString p]))

/-- The tag-paths cell of tags/AllAssets.vue (template): the `NodePath`
component receives `row.paths` unabridged. -/
def tagAllAssetsRenderedPaths (r : AssetWithPaths) : List (List NodeSummary) :=
  r.paths

/-! ## AssetPage (part_016) — tag cards -/

/-- The `TagResponse` interface of the asset page (part_016 lines 226-230),
field order as declared. -/
structure TagResponse where
  direct : List TagSummary
  via_lineage : List TagSummary
  via_hierarchy : List TagSummary
deriving DecidableEq, Repr

/-- Badges of the "Direct Tags" card: `v-for tag in allTags.direct`. -/
def assetPageDirectBadges (r : TagResponse) : List JStr :=
  r.direct.map (fun t => nodeNameAsString (.tag t))

/-- Badges of the "Inherited Tags - Hierarchy" card:
`v-for tag in allTags.via_hierarchy`. -/
def assetPageHierarchyBadges (r : TagResponse) : List JStr :=
  r.via_hierarchy.map (fun t => nodeNameAsString (.tag t))

/-- Badges of the "Inherited Tags - Lineage" card:
`v-for tag in allTags.via_lineage`. -/
def assetPageLineageBadges (r : TagResponse) : List JStr :=
  r.via_lineage.map (fun t => nodeNameAsString (.tag t))

/-! ## TagSummary field spelling (models.ts vs TagPage.vue) -/

/-- The property names of the `TagSummary.Tag` interface (models.ts lines
100-108), in declaration order and with the source's spelling. -/
def tagSummaryFieldNames : List JStr :=
  [jstr "name", jstr "description", jstr "pass_through_hierarch",
    jstr "pass_through_lineage", jstr "connectors"]

/-- The hierarchy-inheritance property TagPage.vue reads (line 18):
`currentNode.Tag.pass_through_hierarchy`. -/
def tagPageHierarchyFlagRead : JStr := jstr "pass_through_hierarchy"

/-- The lineage-inheritance property TagPage.vue reads (line 11):
`currentNode.Tag.pass_through_lineage`. -/
def tagPageLineageFlagRead : JStr := jstr "pass_through_lineage"

/-! ## The permission-resolution core, modelled from the spec

The spec (§1) states the engine is "documented (but not shown in source
form here)"; §4.4 and §8 define its conflict-resolution semantics.  The
definitions below are modelled from those words. -/

/-- Modelled from the spec: the ordered privilege scale
`none < metadata < read < write`; `deny` is a distinct override carried by
`PolicyOutcome`, not part of the scale. -/
inductive Privilege where
  | none
  | metadata
  | read
  | write
deriving DecidableEq, Repr

/-- Permissiveness rank of a privilege level. -/
def privRank : Privilege → Nat
  | .none => 0
  | .metadata => 1
  | .read => 2
  | .write => 3

/-- The more permissive of two privilege levels. -/
def privMax (a b : Privilege) : Privilege :=
  if privRank a ≤ privRank b then b else a

/-- Modelled from the spec: what a policy grants — a Deny override or an
Allow at a privilege level. -/
inductive PolicyOutcome where
  | deny
  | allow (p : Privilege)
deriving DecidableEq, Repr

/-- Modelled from the spec §4.4 step 2: the specificity tier of a matching
policy — joint tag+asset target, direct asset target, tag-only target, or
default/ancestor-inherited target at a hierarchical distance. -/
inductive Tier where
  | jointTagAsset
  | directAsset
  | tagOnly
  | ancestorDefault (distance : Nat)
deriving DecidableEq, Repr

/-- Specificity rank; smaller is more specific.  Joint tag+asset outranks
asset, which outranks tag, which outranks every ancestor-default; among
ancestor-defaults a closer ancestor (smaller distance) outranks a farther
one. -/
def tierRank : Tier → Nat
  | .jointTagAsset => 0
  | .directAsset => 1
  | .tagOnly => 2
  | .ancestorDefault d => 3 + d

/-- `a` is at least as specific as `b`. -/
abbrev tierLE (a b : Tier) : Prop := tierRank a ≤ tierRank b

/-- `a` is strictly more specific than `b`. -/
abbrev tierLT (a b : Tier) : Prop := tierRank a < tierRank b

/-- The more specific of two tiers (left-biased on ties). -/
def moreSpecific (a b : Tier) : Tier :=
  if tierRank a ≤ tierRank b then a else b

/-- A policy that matched a resolution, classified by its tier. -/
structure RankedPolicy where
  tier : Tier
  outcome : PolicyOutcome
deriving DecidableEq, Repr

/-- Resolution result: Deny, Allow at a level, or no access at all
(default-deny baseline when no policy matches). -/
inductive Resolution where
  | deny
  | allow (p : Privilege)
  | noAccess
deriving DecidableEq, Repr

/-- The most specific tier present among the matching policies; `none`
exactly when no policy matched. -/
def mostSpecificTier : List RankedPolicy → Option Tier
  | [] => Option.none
  | p :: ps => some (ps.foldl (fun acc q => moreSpecific acc q.tier) p.tier)

/-- The most permissive Allow level among classified policies (the Deny
case never arises where this is used: the caller rules denies out first). -/
def allowLevel : PolicyOutcome → Privilege
  | .deny => .none
  | .allow p => p

/-- Fold of `privMax` over the allow levels of a policy list. -/
def maxAllowed (ps : List RankedPolicy) : Privilege :=
  ps.foldl (fun acc p => privMax acc (allowLevel p.outcome)) .none

/-- Modelled from the spec §4.4 steps 2-4: keep only the policies at the
most specific tier present; any Deny there wins; otherwise the most
permissive Allow level at that tier wins; with no matching policy the
result is "no access". -/
def resolveRanked (ps : List RankedPolicy) : Resolution :=
  match mostSpecificTier ps with
  | Option.none => .noAccess
  | some bt =>
    let atBest := ps.filter (fun p => decide (p.tier = bt))
    if atBest.any (fun p => decide (p.outcome = .deny)) then .deny
    else .allow (maxAllowed atBest)

/-- Modelled from the spec: the asset graph's two edge relations — `child_of`
(hierarchical containment, read upward) and `derived_from` (lineage). -/
structure AccessGraph where
  childOf : Nat → Nat → Prop
  derivedFrom : Nat → Nat → Prop

/-- `a` is a hierarchical ancestor of `d`: one or more `child_of` steps
upward from `d` reach `a`. -/
def hierAncestor (g : AccessGraph) (d a : Nat) : Prop :=
  Relation.TransGen g.childOf d a

/-- `d` is lineage-derived, directly or transitively, from `a`. -/
def lineageDerived (g : AccessGraph) (d a : Nat) : Prop :=
  Relation.TransGen g.derivedFrom d a

/-- Modelled from the spec §4.4 step 1: an Allow policy's target reaches an
asset only directly or via the ancestor-hierarchy closure. -/
def allowTargetApplies (g : AccessGraph) (target asset : Nat) : Prop :=
  target = asset ∨ hierAncestor g asset target

/-- Modelled from the spec §4.4 (asymmetry paragraph): a Deny policy's
target reaches an asset directly, via the ancestor-hierarchy closure, or
via the reverse-lineage closure — anything derived from a denied asset is
also denied. -/
def denyTargetApplies (g : AccessGraph) (target asset : Nat) : Prop :=
  target = asset ∨ hierAncestor g asset target ∨ lineageDerived g asset target

/-- Modelled from the spec: a policy record as the Resolver sees it —
agent ids, a target asset id, and its outcome. -/
structure SpecPolicy where
  agents : List Nat
  target : Nat
  outcome : PolicyOutcome

/-- The policy's agents intersect the user's membership closure. -/
def agentApplies (agentClosure : List Nat) (P : SpecPolicy) : Prop :=
  ∃ a ∈ agentClosure, a ∈ P.agents

/-- Modelled from the spec §4.4 step 1: a policy is applicable to
`(agent closure, asset)` when its agents intersect the closure and its
target closure — hierarchical only for Allow, hierarchical plus
reverse-lineage for Deny — reaches the asset. -/
def policyApplies (g : AccessGraph) (agentClosure : List Nat) (asset : Nat)
    (P : SpecPolicy) : Prop :=
  agentApplies agentClosure P ∧
    match P.outcome with
    | .deny => denyTargetApplies g P.target asset
    | .allow _ => allowTargetApplies g P.target asset

/-- A display name of the platform-qualified form `connector::path`: some
qualifier, the `::` separator, some remainder. -/
def platformQualified (s : JStr) : Prop :=
  ∃ c p : JStr, s = c ++ ':' :: ':' :: p

/-! ## Helper lemmas -/

theorem splitOnChar_ne_nil (ch : Char) (s : JStr) : splitOnChar ch s ≠ [] := by
  cases s with
  | nil => simp [splitOnChar]
  | cons c rest =>
    by_cases h : c = ch
    · simp [splitOnChar, h]
    · simp only [splitOnChar, if_neg h]
      cases splitOnChar ch rest <;> simp

theorem doubleQuotes_cons (c : Char) (s : JStr) :
    doubleQuotes (c :: s) = (if c = '\"' then [c, c] else [c]) ++ doubleQuotes s := by
  by_cases h : c = '\"' <;> simp [doubleQuotes, h]

theorem joinWith_quotes_splitOnChar (s : JStr) :
    joinWith (jstr "\"\"") (splitOnChar '\"' s) = doubleQuotes s := by
  have hsep : jstr "\"\"" = ['\"', '\"'] := rfl
  induction s with
  | nil => rfl
  | cons c rest ih =>
    rcases hr : splitOnChar '\"' rest with _ | ⟨h1, t1⟩
    · exact absurd hr (splitOnChar_ne_nil _ _)
    · rw [hr] at ih
      by_cases h : c = '\"'
      · subst h
        have hsplit : splitOnChar '\"' ('\"' :: rest) = [] :: h1 :: t1 := by
          simp [splitOnChar, hr]
        have hjoin : joinWith (jstr "\"\"") ([] :: h1 :: t1)
            = jstr "\"\"" ++ joinWith (jstr "\"\"") (h1 :: t1) := by
          simp [joinWith]
        rw [hsplit, hjoin, ih, doubleQuotes_cons, if_pos rfl, hsep]
      · have hsplit : splitOnChar '\"' (c :: rest) = (c :: h1) :: t1 := by
          simp [splitOnChar, if_neg h, hr]
        rw [hsplit, doubleQuotes_cons, if_neg h, ← ih]
        cases t1 with
        | nil => simp [joinWith]
        | cons y t2 => simp [joinWith]

theorem joinWith_eq_intercalate (sep : JStr) : ∀ l : List JStr,
    joinWith sep l = List.intercalate sep l
  | [] => by simp [joinWith, List.intercalate]
  | [x] => by simp [joinWith, List.intercalate]
  | x :: y :: xs => by
    have ih := joinWith_eq_intercalate sep (y :: xs)
    simp only [joinWith] at ih ⊢
    rw [ih]
    simp [List.intercalate, List.intersperse]

theorem collectUpTo_eq_take {α : Type} (p : α → Bool) :
    ∀ (items : List α) (n len : Nat), len < n →
      collectUpTo p n len items = (items.filter p).take (n - len) := by
  intro items
  induction items with
  | nil => intro n len _; simp [collectUpTo]
  | cons i rest ih =>
    intro n len h
    by_cases hp : p i
    · simp only [collectUpTo, if_pos hp, List.filter_cons, hp, if_pos]
      have hlen : 0 < n - len := Nat.sub_pos_of_lt h
      rw [List.take_cons hlen]
      by_cases he : len + 1 = n
      · have : n - len - 1 = 0 := by omega
        rw [if_pos he, this, List.take_zero]
      · have h2 : len + 1 < n := Nat.lt_of_le_of_ne h he
        rw [if_neg he, ih n (len + 1) h2, Nat.sub_add_eq]
    · simp only [collectUpTo, if_neg hp, List.filter_cons]
      rw [ih n len h]

theorem tierRank_inj : ∀ a b : Tier, tierRank a = tierRank b → a = b := by
  intro a b
  cases a <;> cases b <;> simp [tierRank] <;> omega

theorem moreSpecific_le_left (a b : Tier) : tierLE (moreSpecific a b) a := by
  unfold moreSpecific
  by_cases h : tierRank a ≤ tierRank b
  · simp [h]
  · simp only [if_neg h]
    exact Nat.le_of_lt (Nat.lt_of_not_le h)

theorem moreSpecific_le_right (a b : Tier) : tierLE (moreSpecific a b) b := by
  unfold moreSpecific
  by_cases h : tierRank a ≤ tierRank b
  · simp [moreSpecific, h]
  · simp [h]

theorem moreSpecific_eq_or (a b : Tier) : moreSpecific a b = a ∨ moreSpecific a b = b := by
  unfold moreSpecific
  by_cases h : tierRank a ≤ tierRank b <;> simp [h]

theorem foldl_moreSpecific_le (l : List RankedPolicy) : ∀ t : Tier,
    tierLE (l.foldl (fun acc q => moreSpecific acc q.tier) t) t ∧
      ∀ q ∈ l, tierLE (l.foldl (fun acc q => moreSpecific acc q.tier) t) q.tier := by
  induction l with
  | nil => intro t; exact ⟨Nat.le_refl _, by simp⟩
  | cons q l ih =>
    intro t
    have h1 := (ih (moreSpecific t q.tier)).1
    have h2 := (ih (moreSpecific t q.tier)).2
    refine ⟨Nat.le_trans (by simpa using h1) (moreSpecific_le_left t q.tier), ?_⟩
    intro q' hq'
    rcases List.mem_cons.1 hq' with h | h
    · subst h
      exact Nat.le_trans (by simpa using h1) (moreSpecific_le_right t q'.tier)
    · simpa using h2 q' h

theorem foldl_moreSpecific_mem (l : List RankedPolicy) : ∀ t : Tier,
    l.foldl (fun acc q => moreSpecific acc q.tier) t = t ∨
      ∃ q ∈ l, l.foldl (fun acc q => moreSpecific acc q.tier) t = q.tier := by
  induction l with
  | nil => intro t; exact Or.inl rfl
  | cons q l ih =>
    intro t
    have step : (q :: l).foldl (fun acc q => moreSpecific acc q.tier) t
        = l.foldl (fun acc q => moreSpecific acc q.tier) (moreSpecific t q.tier) := by
      simp
    rcases ih (moreSpecific t q.tier) with h | ⟨q', hq', h⟩
    · rcases moreSpecific_eq_or t q.tier with h' | h'
      · exact Or.inl (by rw [step, h, h'])
      · exact Or.inr ⟨q, List.mem_cons_self q l, by rw [step, h, h']⟩
    · exact Or.inr ⟨q', List.mem_cons_of_mem q hq', by rw [step, h]⟩

theorem privMax_le_iff (a b : Privilege) :
    privRank a ≤ privRank (privMax a b) ∧ privRank b ≤ privRank (privMax a b) := by
  unfold privMax
  by_cases h : privRank a ≤ privRank b
  · simp [h]
  · simp only [if_neg h]
    exact ⟨Nat.le_refl _, Nat.le_of_lt (Nat.lt_of_not_le h)⟩

theorem privMax_eq_or (a b : Privilege) : privMax a b = a ∨ privMax a b = b := by
  unfold privMax
  by_cases h : privRank a ≤ privRank b <;> simp [h]

theorem foldl_privMax_le (l : List RankedPolicy) : ∀ seed : Privilege,
    privRank seed ≤
        privRank (l.foldl (fun acc p => privMax acc (allowLevel p.outcome)) seed) ∧
      ∀ p ∈ l, privRank (allowLevel p.outcome) ≤
        privRank (l.foldl (fun acc p => privMax acc (allowLevel p.outcome)) seed) := by
  induction l with
  | nil => intro seed; exact ⟨Nat.le_refl _, by simp⟩
  | cons p l ih =>
    intro seed
    have h1 := (ih (privMax seed (allowLevel p.outcome))).1
    have h2 := (ih (privMax seed (allowLevel p.outcome))).2
    constructor
    · exact Nat.le_trans (privMax_le_iff seed (allowLevel p.outcome)).1 (by simpa using h1)
    · intro p' hp'
      rcases List.mem_cons.1 hp' with h | h
      · subst h
        exact Nat.le_trans (privMax_le_iff seed (allowLevel p'.outcome)).2 (by simpa using h1)
      · simpa using h2 p' h

theorem foldl_privMax_mem (l : List RankedPolicy) : ∀ seed : Privilege,
    l.foldl (fun acc p => privMax acc (allowLevel p.outcome)) seed = seed ∨
      ∃ p ∈ l, l.foldl (fun acc p => privMax acc (allowLevel p.outcome)) seed
        = allowLevel p.outcome := by
  induction l with
  | nil => intro seed; exact Or.inl rfl
  | cons p l ih =>
    intro seed
    have step : (p :: l).foldl (fun acc p => privMax acc (allowLevel p.outcome)) seed
        = l.foldl (fun acc p => privMax acc (allowLevel p.outcome))
          (privMax seed (allowLevel p.outcome)) := by
      simp
    rcases ih (privMax seed (allowLevel p.outcome)) with h | ⟨p', hp', h⟩
    · rcases privMax_eq_or seed (allowLevel p.outcome) with h' | h'
      · exact Or.inl (by rw [step, h, h'])
      · exact Or.inr ⟨p, List.mem_cons_self p l, by rw [step, h, h']⟩
    · exact Or.inr ⟨p', List.mem_cons_of_mem p hp', by rw [step, h]⟩

/-! ## Claim theorems -/

/-- C10: for every row list (and row-to-string transformer), JettyTable's
`filterMethod` applied with the empty-string filter term returns the row
list itself, unchanged and in order. -/
theorem filterMethod_empty_term_identity {α : Type} (rowTransformer : α → JStr)
    (rows : List α) : filterMethod rowTransformer rows [] = rows := by
  simp [filterMethod]

/-- C4: each of the four documented query kinds is fetched by its UI
component at exactly the documented façade path — `/api/asset/{id}/users`
for the asset direct-access table, `/api/user/{id}/assets` for the user
assets table, `/api/tag/{id}/all_assets` for the tag all-assets table, and
`/api/group/{id}/all_members` for the group all-members table — with the
URI-encoded node name as the `{id}` segment. -/
theorem fetchPaths_match_documented_facade (id : JStr) :
    directAccessFetchPath id = facadePath (jstr "asset") (encodeURIComponent id) (jstr "users") ∧
    userAssetsFetchPath id = facadePath (jstr "user") (encodeURIComponent id) (jstr "assets") ∧
    tagAllAssetsFetchPath id
        = facadePath (jstr "tag") (encodeURIComponent id) (jstr "all_assets") ∧
    groupAllMembersFetchPath id
        = facadePath (jstr "group") (encodeURIComponent id) (jstr "all_members") := by
  refine ⟨?_, ?_, ?_, ?_⟩
  · simp only [directAccessFetchPath, facadePath, List.append_assoc]
    rw [show (jstr "/" ++ jstr "users" : JStr) = jstr "/users" from rfl,
      show (jstr "/api/asset/" : JStr) = jstr "/api/" ++ (jstr "asset" ++ jstr "/") from rfl]
    simp [List.append_assoc]
  · simp only [userAssetsFetchPath, facadePath, List.append_assoc]
    rw [show (jstr "/" ++ jstr "assets" : JStr) = jstr "/assets" from rfl,
      show (jstr "/api/user/" : JStr) = jstr "/api/" ++ (jstr "user" ++ jstr "/") from rfl]
    simp [List.append_assoc]
  · simp only [tagAllAssetsFetchPath, facadePath, List.append_assoc]
    rw [show (jstr "/" ++ jstr "all_assets" : JStr) = jstr "/all_assets" from rfl,
      show (jstr "/api/tag/" : JStr) = jstr "/api/" ++ (jstr "tag" ++ jstr "/") from rfl]
    simp [List.append_assoc]
  · simp only [groupAllMembersFetchPath, facadePath, List.append_assoc]
    rw [show (jstr "/" ++ jstr "all_members" : JStr) = jstr "/all_members" from rfl,
      show (jstr "/api/group/" : JStr) = jstr "/api/" ++ (jstr "group" ++ jstr "/") from rfl]
    simp [List.append_assoc]

/-- C5 (counterexample): the claim that every node kind's display name is
platform-qualified fails on a concrete User node — `nodeNameAsString`
returns the bare user name, which contains no `::` separator. -/
theorem nodeName_user_not_platform_qualified :
    ¬ platformQualified
        (nodeNameAsString (.user ⟨jstr "alice", [jstr "snowflake"]⟩)) := by
  rintro ⟨c, p, hcp⟩
  have h2 : (jstr "alice" : JStr) = c ++ ':' :: ':' :: p := hcp
  have hmem : ':' ∈ (jstr "alice" : JStr) := by
    rw [h2]
    exact List.mem_append_right _ (List.mem_cons_self _ _)
  exact absurd hmem (by decide)

/-- C5 (amended): `nodeNameAsString` returns a platform-qualified
`connector::path` name for Group (`origin::name`) and Asset
(`connector::` + `/`-joined path) nodes, while User and Tag nodes render
as their bare name, unqualified. -/
theorem nodeNameAsString_qualification :
    (∀ g : GroupSummary,
      nodeNameAsString (.group g) = g.origin ++ jstr "::" ++ g.name ∧
        platformQualified (nodeNameAsString (.group g))) ∧
    (∀ a : AssetSummary,
      nodeNameAsString (.asset a)
          = a.connector ++ jstr "::" ++ joinWith (jstr "/") a.path ∧
        platformQualified (nodeNameAsString (.asset a))) ∧
    (∀ u : UserSummary, nodeNameAsString (.user u) = u.name) ∧
    (∀ t : TagSummary, nodeNameAsString (.tag t) = t.name) := by
  refine ⟨fun g => ⟨rfl, g.origin, g.name, ?_⟩,
    fun a => ⟨rfl, a.connector, joinWith (jstr "/") a.path, ?_⟩, fun u => rfl, fun t => rfl⟩
  · rw [show nodeNameAsString (.group g) = g.origin ++ jstr "::" ++ g.name from rfl,
      show (jstr "::" : JStr) = [':', ':'] from rfl]
    simp [List.append_assoc]
  · rw [show nodeNameAsString (.asset a)
        = a.connector ++ jstr "::" ++ joinWith (jstr "/") a.path from rfl,
      show (jstr "::" : JStr) = [':', ':'] from rfl]
    simp [List.append_assoc]

/-- C7: the `TagSummary` interface does declare two independent boolean
inheritance flags, but the hierarchy flag is spelled
`pass_through_hierarch` (models.ts lines 100-108), while TagPage.vue reads
`pass_through_hierarchy` — the property name the claim (and the spec)
uses is absent from the declared interface. -/
theorem tagSummary_flag_name_mismatch :
    jstr "pass_through_hierarch" ∈ tagSummaryFieldNames ∧
    tagPageHierarchyFlagRead ∉ tagSummaryFieldNames ∧
    tagPageLineageFlagRead ∈ tagSummaryFieldNames := by
  decide

/-- C6: the asset page consumes the `/api/asset/{id}/tags` response as
three independent lists — each card renders exactly its own list (same
length, no collapsing, unaffected by the other two lists), and a tag
present in both the hierarchy and the lineage list appears in both
cards. -/
theorem assetPage_tag_groups_kept_separate :
    (∀ r : TagResponse,
      (assetPageDirectBadges r).length = r.direct.length ∧
      (assetPageHierarchyBadges r).length = r.via_hierarchy.length ∧
      (assetPageLineageBadges r).length = r.via_lineage.length) ∧
    (∀ r r' : TagResponse, r.direct = r'.direct →
      assetPageDirectBadges r = assetPageDirectBadges r') ∧
    (∀ r r' : TagResponse, r.via_hierarchy = r'.via_hierarchy →
      assetPageHierarchyBadges r = assetPageHierarchyBadges r') ∧
    (∀ r r' : TagResponse, r.via_lineage = r'.via_lineage →
      assetPageLineageBadges r = assetPageLineageBadges r') ∧
    (∀ (r : TagResponse) (t : TagSummary), t ∈ r.via_hierarchy → t ∈ r.via_lineage →
      nodeNameAsString (.tag t) ∈ assetPageHierarchyBadges r ∧
        nodeNameAsString (.tag t) ∈ assetPageLineageBadges r) := by
  refine ⟨fun r => ⟨?_, ?_, ?_⟩, fun r r' h => ?_, fun r r' h => ?_, fun r r' h => ?_,
    fun r t h1 h2 => ⟨?_, ?_⟩⟩
  · simp [assetPageDirectBadges]
  · simp [assetPageHierarchyBadges]
  · simp [assetPageLineageBadges]
  · simp [assetPageDirectBadges, h]
  · simp [assetPageHierarchyBadges, h]
  · simp [assetPageLineageBadges, h]
  · exact List.mem_map_of_mem _ h1
  · exact List.mem_map_of_mem _ h2

/-- C6 (witness): a tag present in both inherited lists of a concrete
response appears in both the hierarchy card and the lineage card. -/
theorem assetPage_tag_groups_witness :
    nodeNameAsString (.tag ⟨jstr "pii", Option.none, true, true, []⟩)
        ∈ assetPageHierarchyBadges
            ⟨[], [⟨jstr "pii", Option.none, true, true, []⟩],
              [⟨jstr "pii", Option.none, true, true, []⟩]⟩ ∧
      nodeNameAsString (.tag ⟨jstr "pii", Option.none, true, true, []⟩)
        ∈ assetPageLineageBadges
            ⟨[], [⟨jstr "pii", Option.none, true, true, []⟩],
              [⟨jstr "pii", Option.none, true, true, []⟩]⟩ :=
  assetPage_tag_groups_kept_separate.2.2.2.2
    ⟨[], [⟨jstr "pii", Option.none, true, true, []⟩],
      [⟨jstr "pii", Option.none, true, true, []⟩]⟩
    ⟨jstr "pii", Option.none, true, true, []⟩ (by decide) (by decide)

/-- C9: `wrapCsvValue` returns its input's string image with every `"`
doubled, wrapped in a leading and a trailing quote (an empty quoted string
for `undefined`/`null`), so every cell is quote-wrapped; and the
`downloadCSV` content is the header row and the data rows, each
comma-joined, joined with CRLF. -/
theorem wrapCsv_and_downloadCSV_shape :
    (∀ v : CsvVal, wrapCsvValue v = '\"' :: doubleQuotes (csvBaseString v) ++ ['\"']) ∧
    wrapCsvValue .undef = ['\"', '\"'] ∧
    wrapCsvValue .null = ['\"', '\"'] ∧
    (∀ v : CsvVal,
      (wrapCsvValue v).head? = some '\"' ∧ (wrapCsvValue v).getLast? = some '\"') ∧
    (∀ (columns : List CsvVal) (rows : List (List CsvVal)),
      downloadCSVContent columns rows
        = List.intercalate (jstr "\r\n")
            ((columns :: rows).map
              (fun row => List.intercalate (jstr ",") (row.map wrapCsvValue)))) := by
  have hshape : ∀ v : CsvVal,
      wrapCsvValue v = '\"' :: doubleQuotes (csvBaseString v) ++ ['\"'] := by
    intro v
    simp only [wrapCsvValue]
    rw [joinWith_quotes_splitOnChar]
  refine ⟨hshape, rfl, rfl, fun v => ⟨?_, ?_⟩, fun columns rows => ?_⟩
  · rw [hshape]
    rfl
  · rw [hshape]
    exact List.getLast?_concat _
  · simp only [downloadCSVContent, joinWith_eq_intercalate, List.map_cons]

/-- C3: every façade result row — from `/api/group/{id}/all_members`,
`/api/asset/{id}/users`, `/api/user/{id}/assets` and
`/api/tag/{id}/all_assets` — is a node plus a (possibly empty) list of
witness paths, and each consuming table component retains all of them: the
all-members and tag-all-assets tables render `row.paths` unabridged and
export one CSV line per (row, path) pair — every pair appears and the line
count is the total path count — and the direct-access and user-assets
tables render every privilege with all its explanations/reasons and export
one CSV line per (row, privilege, explanation) triple. -/
theorem facadeRows_all_paths_retained :
    (∀ (rows : List UserWithPaths) (r : UserWithPaths) (m : List NodeSummary),
      r ∈ rows → m ∈ r.paths →
        [nodeNameAsString (.user r.node), joinWith (jstr ", ") r.node.connectors,
          getPathAsString m] ∈ allMembersMappingFn rows) ∧
    (∀ rows : List UserWithPaths,
      (allMembersMappingFn rows).length = (rows.map (fun r => r.paths.length)).sum) ∧
    (∀ r : UserWithPaths, allMembersRenderedPaths r = r.paths) ∧
    (∀ (rows : List DirectAccessRow) (r : DirectAccessRow) (p : AccessPrivilege)
        (e : JStr), r ∈ rows → p ∈ r.privileges → e ∈ p.explanations →
        [r.name, p.name, e] ∈ directAccessMappingFn rows) ∧
    (∀ rows : List DirectAccessRow,
      (directAccessMappingFn rows).length
        = (rows.map
            (fun r => (r.privileges.map (fun p => p.explanations.length)).sum)).sum) ∧
    (∀ r : DirectAccessRow,
      directAccessRenderedPrivileges r
        = r.privileges.map (fun p => (p.name, p.explanations))) ∧
    (∀ (rows : List AssetWithPaths) (r : AssetWithPaths) (m : List NodeSummary),
      r ∈ rows → m ∈ r.paths →
        [nodeNameAsString (.asset r.node), joinWith (jstr ", ") r.node.connectors,
          getPathAsString m] ∈ tagAllAssetsMappingFn rows) ∧
    (∀ rows : List AssetWithPaths,
      (tagAllAssetsMappingFn rows).length = (rows.map (fun r => r.paths.length)).sum) ∧
    (∀ r : AssetWithPaths, tagAllAssetsRenderedPaths r = r.paths) ∧
    (∀ (rows : List AssetWithEffectivePermissions)
        (r : AssetWithEffectivePermissions) (p : EffectivePermission) (e : JStr),
      r ∈ rows → p ∈ r.privileges → e ∈ p.reasons →
        [nodeNameAsString (.asset r.node), joinWith (jstr ", ") r.node.connectors,
          p.privilege, e] ∈ userAssetsMappingFn rows) ∧
    (∀ rows : List AssetWithEffectivePermissions,
      (userAssetsMappingFn rows).length
        = (rows.map
            (fun r => (r.privileges.map (fun p => p.reasons.length)).sum)).sum) ∧
    (∀ r : AssetWithEffectivePermissions,
      userAssetsRenderedPrivileges r
        = r.privileges.map (fun p => (p.privilege, p.reasons))) := by
  refine ⟨?_, ?_, fun r => rfl, ?_, ?_, fun r => rfl, ?_, ?_, fun r => rfl, ?_, ?_,
    fun r => rfl⟩
  · intro rows r m hr hm
    exact List.mem_flatten.2
      ⟨_, List.mem_map_of_mem _ hr, List.mem_map_of_mem _ hm⟩
  · intro rows
    simp only [allMembersMappingFn, jsFlatMap, List.length_flatten, List.map_map]
    congr 1
    exact List.map_congr_left (fun r _ => by simp [Function.comp])
  · intro rows r p e hr hp he
    refine List.mem_flatten.2 ⟨_, List.mem_map_of_mem _ hr, ?_⟩
    exact List.mem_flatten.2 ⟨_, List.mem_map_of_mem _ hp, List.mem_map_of_mem _ he⟩
  · intro rows
    simp only [directAccessMappingFn, jsFlatMap, List.length_flatten, List.map_map]
    congr 1
    refine List.map_congr_left (fun r _ => ?_)
    simp only [Function.comp, List.length_flatten, List.map_map]
    exact congrArg List.sum (List.map_congr_left (fun p _ => by simp [Function.comp]))
  · intro rows r m hr hm
    exact List.mem_flatten.2
      ⟨_, List.mem_map_of_mem _ hr, List.mem_map_of_mem _ hm⟩
  · intro rows
    simp only [tagAllAssetsMappingFn, jsFlatMap, List.length_flatten, List.map_map]
    congr 1
    exact List.map_congr_left (fun r _ => by simp [Function.comp])
  · intro rows r p e hr hp he
    refine List.mem_flatten.2 ⟨_, List.mem_map_of_mem _ hr, ?_⟩
    exact List.mem_flatten.2 ⟨_, List.mem_map_of_mem _ hp, List.mem_map_of_mem _ he⟩
  · intro rows
    simp only [userAssetsMappingFn, jsFlatMap, List.length_flatten, List.map_map]
    congr 1
    refine List.map_congr_left (fun r _ => ?_)
    simp only [Function.comp, List.length_flatten, List.map_map]
    exact congrArg List.sum (List.map_congr_left (fun p _ => by simp [Function.comp]))

/-- C3 (witness): with a concrete all-members row carrying two membership
paths, the first path appears in its CSV export; and with a concrete
tag-all-assets row carrying two tag paths, the second path appears in its
CSV export. -/
theorem facadeRows_all_paths_retained_witness :
    ([nodeNameAsString (.user ⟨jstr "ada", []⟩), joinWith (jstr ", ") ([] : List JStr),
      getPathAsString [.user ⟨jstr "ada", []⟩, .group ⟨jstr "eng", jstr "jetty", []⟩]]
        ∈ allMembersMappingFn
            [⟨⟨jstr "ada", []⟩,
              [[.user ⟨jstr "ada", []⟩, .group ⟨jstr "eng", jstr "jetty", []⟩],
               [.group ⟨jstr "all", jstr "jetty", []⟩]]⟩]) ∧
    ([nodeNameAsString (.asset ⟨jstr "snow", [jstr "db", jstr "t"], jstr "table", []⟩),
      joinWith (jstr ", ") ([] : List JStr),
      getPathAsString [.asset ⟨jstr "snow", [jstr "db"], jstr "database", []⟩]]
        ∈ tagAllAssetsMappingFn
            [⟨⟨jstr "snow", [jstr "db", jstr "t"], jstr "table", []⟩,
              [[], [.asset ⟨jstr "snow", [jstr "db"], jstr "database", []⟩]]⟩]) :=
  ⟨facadeRows_all_paths_retained.1
    [⟨⟨jstr "ada", []⟩,
      [[.user ⟨jstr "ada", []⟩, .group ⟨jstr "eng", jstr "jetty", []⟩],
       [.group ⟨jstr "all", jstr "jetty", []⟩]]⟩]
    ⟨⟨jstr "ada", []⟩,
      [[.user ⟨jstr "ada", []⟩, .group ⟨jstr "eng", jstr "jetty", []⟩],
       [.group ⟨jstr "all", jstr "jetty", []⟩]]⟩
    [.user ⟨jstr "ada", []⟩, .group ⟨jstr "eng", jstr "jetty", []⟩]
    (List.mem_singleton.2 rfl) (List.mem_cons_self _ _),
  facadeRows_all_paths_retained.2.2.2.2.2.2.1
    [⟨⟨jstr "snow", [jstr "db", jstr "t"], jstr "table", []⟩,
      [[], [.asset ⟨jstr "snow", [jstr "db"], jstr "database", []⟩]]⟩]
    ⟨⟨jstr "snow", [jstr "db", jstr "t"], jstr "table", []⟩,
      [[], [.asset ⟨jstr "snow", [jstr "db"], jstr "database", []⟩]]⟩
    [.asset ⟨jstr "snow", [jstr "db"], jstr "database", []⟩]
    (List.mem_singleton.2 rfl)
    (List.mem_cons_of_mem _ (List.mem_cons_self _ _))⟩

/-- C2: a Deny policy on an asset `A` is effective on every asset `D`
lineage-derived (directly or transitively) from `A` and on every
hierarchical descendant of `A`, while an applicable Allow policy reaches an
asset only directly or through the ancestor hierarchy — Deny propagates
through hierarchy and lineage, Allow only hierarchically. -/
theorem deny_propagates_hierarchy_and_lineage :
    (∀ (g : AccessGraph) (ac : List Nat) (asset : Nat) (P : SpecPolicy),
      P.outcome = .deny → agentApplies ac P → lineageDerived g asset P.target →
        policyApplies g ac asset P) ∧
    (∀ (g : AccessGraph) (ac : List Nat) (asset : Nat) (P : SpecPolicy),
      P.outcome = .deny → agentApplies ac P → hierAncestor g asset P.target →
        policyApplies g ac asset P) ∧
    (∀ (g : AccessGraph) (ac : List Nat) (asset : Nat) (P : SpecPolicy)
        (pr : Privilege), P.outcome = .allow pr → policyApplies g ac asset P →
        P.target = asset ∨ hierAncestor g asset P.target) := by
  refine ⟨?_, ?_, ?_⟩
  · intro g ac asset P hd hag hlin
    refine ⟨hag, ?_⟩
    rw [hd]
    exact Or.inr (Or.inr hlin)
  · intro g ac asset P hd hag hhier
    refine ⟨hag, ?_⟩
    rw [hd]
    exact Or.inr (Or.inl hhier)
  · intro g ac asset P pr hp happ
    have hm := happ.2
    rw [hp] at hm
    exact hm

/-- C2 (witness): in a concrete graph where asset 3 is derived from asset 2
and asset 2 from asset 1, a Deny on asset 1 for agent 7 is applicable when
resolving asset 3. -/
theorem deny_propagates_witness :
    policyApplies
      ⟨fun _ _ => False, fun x y => (x = 3 ∧ y = 2) ∨ (x = 2 ∧ y = 1)⟩
      [7] 3 ⟨[7], 1, .deny⟩ :=
  deny_propagates_hierarchy_and_lineage.1
    ⟨fun _ _ => False, fun x y => (x = 3 ∧ y = 2) ∨ (x = 2 ∧ y = 1)⟩
    [7] 3 ⟨[7], 1, .deny⟩ rfl ⟨7, List.mem_singleton.2 rfl, List.mem_singleton.2 rfl⟩
    (Relation.TransGen.head (Or.inl ⟨rfl, rfl⟩)
      (Relation.TransGen.single (Or.inr ⟨rfl, rfl⟩)))

/-- C8: with `numResults = n > 0`, `jettySearch` returns exactly the first
`min(n, k)` elements, in input order, of the `k`-element result it returns
with `numResults` unset; and in both modes an item is included only if its
mapped string contains every parsed term component case-insensitively
(under the default options, i.e. `caseSensitive` unset). -/
theorem jettySearch_bounded_is_prefix_of_unbounded {α : Type} (items : List α)
    (itemMapper : α → JStr) (term : JStr) (n : Nat) (hn : 0 < n) :
    jettySearch items itemMapper term ⟨Option.none, some n⟩
        = (jettySearch items itemMapper term ⟨Option.none, Option.none⟩).take n ∧
    (∀ i ∈ jettySearch items itemMapper term ⟨Option.none, some n⟩,
      ∀ t ∈ parseTerms term, includesB (lowerStr (itemMapper i)) (lowerStr t) = true) ∧
    (∀ i ∈ jettySearch items itemMapper term ⟨Option.none, Option.none⟩,
      ∀ t ∈ parseTerms term, includesB (lowerStr (itemMapper i)) (lowerStr t) = true) := by
  have hb : jettySearch items itemMapper term ⟨Option.none, some n⟩
      = (items.filter
          (fun i => searchMatches false (parseTerms term) (itemMapper i))).take n := by
    show collectUpTo (fun i => searchMatches false (parseTerms term) (itemMapper i))
        n 0 items = _
    rw [collectUpTo_eq_take _ _ _ _ hn, Nat.sub_zero]
  have hu : jettySearch items itemMapper term ⟨Option.none, Option.none⟩
      = items.filter (fun i => searchMatches false (parseTerms term) (itemMapper i)) :=
    rfl
  have hmatch : ∀ i ∈ items.filter
      (fun i => searchMatches false (parseTerms term) (itemMapper i)),
      ∀ t ∈ parseTerms term, includesB (lowerStr (itemMapper i)) (lowerStr t) = true := by
    intro i hi t ht
    have hp := (List.mem_filter.1 hi).2
    simp only [searchMatches, Bool.false_and, Bool.false_or] at hp
    exact List.all_eq_true.1 hp t ht
  refine ⟨by rw [hb, hu], ?_, ?_⟩
  · intro i hi t ht
    exact hmatch i (List.take_subset _ _ (hb ▸ hi)) t ht
  · intro i hi t ht
    exact hmatch i (hu ▸ hi) t ht

/-- C8 (witness): a concrete bounded search equals the 1-element prefix of
the corresponding unbounded search. -/
theorem jettySearch_bounded_witness :
    jettySearch [jstr "alpha", jstr "beta", jstr "alps"] (fun s => s) (jstr "al")
        ⟨Option.none, some 1⟩
      = (jettySearch [jstr "alpha", jstr "beta", jstr "alps"] (fun s => s) (jstr "al")
          ⟨Option.none, Option.none⟩).take 1 :=
  (jettySearch_bounded_is_prefix_of_unbounded [jstr "alpha", jstr "beta", jstr "alps"]
    (fun s => s) (jstr "al") 1 (by decide)).1

/-- C1: the specificity ordering over tiers is total, antisymmetric and
transitive (hence a deterministic linear order), ranks
joint tag+asset above direct asset above tag-only above ancestor-default
with a closer ancestor above a farther one; the resolved tier is the most
specific tier among the matching policies; and within that tier any Deny
makes the result Deny, while otherwise the result is Allow at the most
permissive privilege present there. -/
theorem resolver_specificity_total_and_tiebreak :
    (∀ a b : Tier, tierLE a b ∨ tierLE b a) ∧
    (∀ a b : Tier, tierLE a b → tierLE b a → a = b) ∧
    (∀ a b c : Tier, tierLE a b → tierLE b c → tierLE a c) ∧
    (tierLT .jointTagAsset .directAsset ∧ tierLT .directAsset .tagOnly ∧
      (∀ d : Nat, tierLT .tagOnly (.ancestorDefault d)) ∧
      (∀ d d' : Nat, d < d' → tierLT (.ancestorDefault d) (.ancestorDefault d'))) ∧
    (∀ (ps : List RankedPolicy) (bt : Tier), mostSpecificTier ps = some bt →
      bt ∈ ps.map RankedPolicy.tier ∧ (∀ p ∈ ps, tierLE bt p.tier)) ∧
    (∀ (ps : List RankedPolicy) (bt : Tier), mostSpecificTier ps = some bt →
      ((∃ p ∈ ps, p.tier = bt ∧ p.outcome = .deny) → resolveRanked ps = .deny) ∧
      ((∀ p ∈ ps, p.tier = bt → p.outcome ≠ .deny) →
        ∃ v : Privilege, resolveRanked ps = .allow v ∧
          (∀ p ∈ ps, p.tier = bt → privRank (allowLevel p.outcome) ≤ privRank v) ∧
          (v = .none ∨ ∃ p ∈ ps, p.tier = bt ∧ allowLevel p.outcome = v))) := by
  refine ⟨fun a b => Nat.le_total _ _, fun a b h1 h2 => tierRank_inj a b (Nat.le_antisymm h1 h2),
    fun a b c => Nat.le_trans, ⟨by decide, by decide, fun d => by simp only [tierLT, tierRank]; omega,
      fun d d' h => by simp only [tierLT, tierRank]; omega⟩, ?_, ?_⟩
  · intro ps bt hbt
    cases ps with
    | nil => simp [mostSpecificTier] at hbt
    | cons p ps' =>
      simp only [mostSpecificTier, Option.some.injEq] at hbt
      subst hbt
      constructor
      · rcases foldl_moreSpecific_mem ps' p.tier with h | ⟨q, hq, h⟩
        · rw [h]
          exact List.mem_map_of_mem _ (List.mem_cons_self _ _)
        · rw [h]
          exact List.mem_map_of_mem _ (List.mem_cons_of_mem _ hq)
      · intro q hq
        rcases List.mem_cons.1 hq with h | h
        · subst h
          exact (foldl_moreSpecific_le ps' q.tier).1
        · exact (foldl_moreSpecific_le ps' p.tier).2 q h
  · intro ps bt hbt
    constructor
    · rintro ⟨p, hp, hpt, hpd⟩
      have hmem : p ∈ ps.filter (fun q => decide (q.tier = bt)) :=
        List.mem_filter.2 ⟨hp, by simp [hpt]⟩
      have hany : (ps.filter (fun q => decide (q.tier = bt))).any
          (fun q => decide (q.outcome = .deny)) = true :=
        List.any_eq_true.2 ⟨p, hmem, by simp [hpd]⟩
      simp [resolveRanked, hbt, hany]
    · intro hno
      have hnone : (ps.filter (fun q => decide (q.tier = bt))).any
          (fun q => decide (q.outcome = .deny)) = false := by
        rw [List.any_eq_false]
        intro q hq
        have hqm := List.mem_filter.1 hq
        have hqt : q.tier = bt := by simpa using hqm.2
        simpa using hno q hqm.1 hqt
      refine ⟨maxAllowed (ps.filter (fun q => decide (q.tier = bt))), ?_, ?_, ?_⟩
      · simp [resolveRanked, hbt, hnone]
      · intro p hp hpt
        exact (foldl_privMax_le (ps.filter (fun q => decide (q.tier = bt))) .none).2 p
          (List.mem_filter.2 ⟨hp, by simp [hpt]⟩)
      · rcases foldl_privMax_mem (ps.filter (fun q => decide (q.tier = bt))) .none with
          h | ⟨p, hp, h⟩
        · exact Or.inl h
        · have hpm := List.mem_filter.1 hp
          exact Or.inr ⟨p, hpm.1, by simpa using hpm.2, h.symm⟩

/-- C1 (witness): a concrete resolution where a Deny and a more permissive
Allow share the most specific tier present resolves to Deny. -/
theorem resolver_specificity_witness :
    resolveRanked [⟨.directAsset, .allow .write⟩, ⟨.directAsset, .deny⟩,
        ⟨.tagOnly, .allow .read⟩] = .deny :=
  ((resolver_specificity_total_and_tiebreak.2.2.2.2.2
      [⟨.directAsset, .allow .write⟩, ⟨.directAsset, .deny⟩, ⟨.tagOnly, .allow .read⟩]
      Tier.directAsset (by decide)).1)
    ⟨⟨.directAsset, .deny⟩, by decide, rfl, rfl⟩

end Jetty
